import Mathlib

/-!
# AVL tree (`Cpp/AVLtree/AVLTree.cpp`)

A shallow embedding of the class template `AVLTree<T>` at `T = int`, the instantiation used by
`main`.  An owning pointer `std::unique_ptr<Node>` is a value of `Tree`: the null pointer is
`Tree.nil`, a pointer to a node is `Tree.node data height left right`.  Values are only ever
compared, and cached heights stay far below the range of `int` (they never exceed the number
of nodes), so both are unbounded integers here.

Dereferencing a null pointer has no defined result; the functions that dereference a child
(`rotateRight`, `rotateLeft`, and through them `balance` and `insert`) return `Option Tree`,
with `none` standing for such a dereference.
-/

namespace AVLTree

/-- The owning pointer to a `Node` (lines 9-16): null, or a node with its four fields. -/
inductive Tree where
  | nil : Tree
  | node (data : Int) (height : Int) (left : Tree) (right : Tree) : Tree
  deriving DecidableEq

/-- The constructor `Node(val)` (line 15): height 1 and no children. -/
def Tree.leaf (val : Int) : Tree := Tree.node val 1 Tree.nil Tree.nil

/-- Method `height` (lines 20-22): the cached field, 0 for the null pointer. -/
def height : Tree → Int
  | Tree.nil => 0
  | Tree.node _ h _ _ => h

/-- Method `balanceFactor` (lines 24-26). -/
def balanceFactor : Tree → Int
  | Tree.nil => 0
  | Tree.node _ _ l r => height l - height r

/-- Method `updateHeight` (lines 28-32): rewrites the cached field of a non-null node. -/
def updateHeight : Tree → Tree
  | Tree.nil => Tree.nil
  | Tree.node d _ l r => Tree.node d (1 + max (height l) (height r)) l r

/-- The assignment `p->right = std::move(q)`: the old right subtree of `p` is destroyed and
`q` takes its place.  The caller is left with a null `q`. -/
def setRight : Tree → Tree → Option Tree
  | Tree.nil, _ => none
  | Tree.node d h l _, q => some (Tree.node d h l q)

/-- The assignment `p->left = std::move(q)`. -/
def setLeft : Tree → Tree → Option Tree
  | Tree.nil, _ => none
  | Tree.node d h _ r, q => some (Tree.node d h q r)

/-- Method `rotateRight` (lines 34-42), statement by statement.  Line 38 moves `y` into
`x->right` and leaves `y` null; line 39 repeats the assignment and so moves the null `y`
into `x->right`, which destroys the node that line 38 put there. -/
def rotateRight (y : Tree) : Option Tree :=
  match y with
  | Tree.nil => none
  | Tree.node yd yh yl yr =>
    -- auto x = std::move(y->left);
    let x := yl
    match x with
    | Tree.nil => none
    | Tree.node xd xh xl xr =>
      -- y->left = std::move(x->right);
      let y := Tree.node yd yh xr yr
      let x := Tree.node xd xh xl Tree.nil
      -- updateHeight(y);
      let y := updateHeight y
      -- x->right = std::move(y);
      (setRight x y).bind fun x =>
      let y := Tree.nil
      -- x->right = std::move(y);
      (setRight x y).bind fun x =>
      -- updateHeight(x); return x;
      some (updateHeight x)

/-- Method `rotateLeft` (lines 44-51), statement by statement. -/
def rotateLeft (x : Tree) : Option Tree :=
  match x with
  | Tree.nil => none
  | Tree.node xd xh xl xr =>
    -- auto y = std::move(x->right);
    let y := xr
    match y with
    | Tree.nil => none
    | Tree.node yd yh yl yr =>
      -- x->right = std::move(y->left);
      let x := Tree.node xd xh xl yl
      let y := Tree.node yd yh Tree.nil yr
      -- updateHeight(x);
      let x := updateHeight x
      -- y->left = std::move(x);
      (setLeft y x).bind fun y =>
      -- updateHeight(y); return y;
      some (updateHeight y)

/-- Method `balance` (lines 53-70). -/
def balance (node : Tree) : Option Tree :=
  let node := updateHeight node
  let bf := balanceFactor node
  if bf > 1 then
    match node with
    | Tree.nil => none
    | Tree.node d h l r =>
      if balanceFactor l < 0 then
        (rotateLeft l).bind fun l => rotateRight (Tree.node d h l r)
      else
        rotateRight (Tree.node d h l r)
  else if bf < -1 then
    match node with
    | Tree.nil => none
    | Tree.node d h l r =>
      if balanceFactor r > 0 then
        (rotateRight r).bind fun r => rotateLeft (Tree.node d h l r)
      else
        rotateLeft (Tree.node d h l r)
  else
    some node

/-- The private recursive method `insert` (lines 72-84). -/
def insert : Tree → Int → Option Tree
  | Tree.nil, val => some (Tree.leaf val)
  | Tree.node d h l r, val =>
    if val < d then
      (insert l val).bind fun l => balance (Tree.node d h l r)
    else if val > d then
      (insert r val).bind fun r => balance (Tree.node d h l r)
    else
      some (Tree.node d h l r)

/-- The sequence of values that method `inorder` (lines 86-91) writes. -/
def inorder : Tree → List Int
  | Tree.nil => []
  | Tree.node d _ l r => inorder l ++ d :: inorder r

/-- Method `getHeight` (lines 125-127) on a tree object whose `root` is the argument. -/
def getHeight (root : Tree) : Int := height root

/-- The loop of `main` (lines 136-138) for an arbitrary list of values: the public `insert`
(lines 109-111) is applied to each value in turn, starting from the given root. -/
def insertAll : Tree → List Int → Option Tree
  | root, [] => some root
  | root, val :: rest => (insert root val).bind fun root => insertAll root rest

/-- The tree object after the constructor (line 107) and one public `insert` per value. -/
def build (xs : List Int) : Option Tree := insertAll Tree.nil xs

/-- The `while` loop of method `levelOrder` (lines 97-104).  The queue of node pointers is a
list with its front first, and the result is the sequence of (data, height) pairs written.
Each iteration pops the front node, writes its pair and pushes its non-null children, left
before right.  The first argument bounds the number of iterations; `none` is returned when it
runs out with a non-empty queue, or when the node popped is a null pointer. -/
def levelOrderLoop : Nat → List Tree → Option (List (Int × Int))
  | _, [] => some []
  | 0, _ :: _ => none
  | _ + 1, Tree.nil :: _ => none
  | fuel + 1, Tree.node d h l r :: q =>
    let q := if l = Tree.nil then q else q ++ [l]
    let q := if r = Tree.nil then q else q ++ [r]
    (levelOrderLoop fuel q).map fun out => (d, h) :: out

/-- Method `levelOrder` (lines 93-104): nothing for a null pointer, else the loop on a queue
that holds the root. -/
def levelOrder (fuel : Nat) (node : Tree) : Option (List (Int × Int)) :=
  if node = Tree.nil then some [] else levelOrderLoop fuel [node]

/-! ## The invariants of the data model -/

/-- Height correctness at every node: the cached field is one more than the larger of the
children's heights as `height` reports them. -/
def HeightsOK : Tree → Prop
  | Tree.nil => True
  | Tree.node _ h l r => h = 1 + max (height l) (height r) ∧ HeightsOK l ∧ HeightsOK r

/-- AVL balance at every node: the children's heights differ by at most one. -/
def Balanced : Tree → Prop
  | Tree.nil => True
  | Tree.node _ _ l r =>
    (-1 ≤ height l - height r ∧ height l - height r ≤ 1) ∧ Balanced l ∧ Balanced r

/-- Binary-search-tree order at every node: everything on the left is smaller, everything on
the right is larger. -/
def Ordered : Tree → Prop
  | Tree.nil => True
  | Tree.node d _ l r =>
    (∀ x ∈ inorder l, x < d) ∧ (∀ x ∈ inorder r, d < x) ∧ Ordered l ∧ Ordered r

/-- The structural height: the number of nodes on the longest path from the root down to a
leaf, 0 for the empty tree. -/
def depth : Tree → Nat
  | Tree.nil => 0
  | Tree.node _ _ l r => 1 + max (depth l) (depth r)

instance decHeightsOK : (t : Tree) → Decidable (HeightsOK t)
  | Tree.nil => isTrue trivial
  | Tree.node _ h l r =>
    @instDecidableAnd _ _ (inferInstanceAs (Decidable (h = 1 + max (height l) (height r))))
      (@instDecidableAnd _ _ (decHeightsOK l) (decHeightsOK r))

instance decBalanced : (t : Tree) → Decidable (Balanced t)
  | Tree.nil => isTrue trivial
  | Tree.node _ _ l r =>
    @instDecidableAnd _ _
      (inferInstanceAs (Decidable (-1 ≤ height l - height r ∧ height l - height r ≤ 1)))
      (@instDecidableAnd _ _ (decBalanced l) (decBalanced r))

instance decOrdered : (t : Tree) → Decidable (Ordered t)
  | Tree.nil => isTrue trivial
  | Tree.node d _ l r =>
    @instDecidableAnd _ _ (inferInstanceAs (Decidable (∀ x ∈ inorder l, x < d)))
      (@instDecidableAnd _ _ (inferInstanceAs (Decidable (∀ x ∈ inorder r, d < x)))
        (@instDecidableAnd _ _ (decOrdered l) (decOrdered r)))

/-- The number of nodes. -/
def size : Tree → Nat
  | Tree.nil => 0
  | Tree.node _ _ l r => 1 + size l + size r

/-- The (data, height) pairs of the nodes at a given distance below the root, from left to
right: one level of the tree. -/
def atDepth : Tree → Nat → List (Int × Int)
  | Tree.nil, _ => []
  | Tree.node d h _ _, 0 => [(d, h)]
  | Tree.node _ _ l r, k + 1 => atDepth l k ++ atDepth r k

/-- The levels of the tree one after the other, the root's level first. -/
def levels (t : Tree) : List (Int × Int) := (List.range (depth t)).flatMap (atDepth t)

/-- The (data, height) pair of every node, each node once (root, left subtree, right
subtree). -/
def nodes : Tree → List (Int × Int)
  | Tree.nil => []
  | Tree.node d h l r => (d, h) :: (nodes l ++ nodes r)

/-- The node has a left child. -/
def hasLeft : Tree → Bool
  | Tree.node _ _ (Tree.node _ _ _ _) _ => true
  | _ => false

/-- The node has a right child. -/
def hasRight : Tree → Bool
  | Tree.node _ _ _ (Tree.node _ _ _ _) => true
  | _ => false

/-- One level of a queue of trees: the level of each tree, front first. -/
def row (q : List Tree) (k : Nat) : List (Int × Int) := q.flatMap fun t => atDepth t k

/-- The queue after one iteration of the loop has pushed the children. -/
def pushChildren (q : List Tree) (l r : Tree) : List Tree :=
  let q := if l = Tree.nil then q else q ++ [l]
  if r = Tree.nil then q else q ++ [r]

/-- The five ways through `balance` for a node with data `d` and subtrees `l`, `r`: no
rotation, Left-Left, Left-Right, Right-Right, Right-Left, each with the tree it returns.  The
cases are told apart by the comparisons of the source. -/
inductive BalanceCase (d : Int) (l r : Tree) : Tree → Prop
  | keep (h1 : -1 ≤ height l - height r) (h2 : height l - height r ≤ 1) :
      BalanceCase d l r (Tree.node d (1 + max (height l) (height r)) l r)
  | leftLeft (xd xh : Int) (xl xr : Tree) (el : l = Tree.node xd xh xl xr)
      (h1 : 1 < height l - height r) (h2 : height xr ≤ height xl) :
      BalanceCase d l r (Tree.node xd (1 + max (height xl) 0) xl Tree.nil)
  | leftRight (xd xh zd zh : Int) (xl zl zr : Tree)
      (el : l = Tree.node xd xh xl (Tree.node zd zh zl zr))
      (h1 : 1 < height l - height r) (h2 : height xl < zh) :
      BalanceCase d l r
        (Tree.node zd (1 + max (1 + max (height xl) (height zl)) 0)
          (Tree.node xd (1 + max (height xl) (height zl)) xl zl) Tree.nil)
  | rightRight (xd xh : Int) (xl xr : Tree) (er : r = Tree.node xd xh xl xr)
      (h1 : height l - height r < -1) (h2 : height xl ≤ height xr) :
      BalanceCase d l r
        (Tree.node xd (1 + max (1 + max (height l) (height xl)) (height xr))
          (Tree.node d (1 + max (height l) (height xl)) l xl) xr)
  | rightLeft (xd xh zd zh : Int) (zl zr xr : Tree)
      (er : r = Tree.node xd xh (Tree.node zd zh zl zr) xr)
      (h1 : height l - height r < -1) (h2 : height xr < zh) :
      BalanceCase d l r
        (Tree.node zd (1 + max (1 + max (height l) (height zl)) 0)
          (Tree.node d (1 + max (height l) (height zl)) l zl) Tree.nil)

/-! ## Counting inserted values -/

/-- The number of values an AVL tree of height `h` needs plus one: `Fib (h + 2)`, with
`Fib 1 = Fib 2 = 1`.  A height below zero counts as zero. -/
def fibBound (h : Int) : Nat := Nat.fib (h.toNat + 2)

/-- The tree fits the set `A` of inserted values: every node's value is in the part of `A`
that lies between the values of the ancestors it hangs under, that part has at least
`Fib (height + 2) - 1` values for the node's cached height, and the part left of the node
has enough values for a height one below that of the right subtree. -/
def Fits : Finset Int → Tree → Prop
  | _, Tree.nil => True
  | A, Tree.node d h l r =>
    d ∈ A ∧ fibBound h ≤ A.card + 1 ∧ fibBound (height r - 1) ≤ (A.filter (· < d)).card + 1 ∧
      Fits (A.filter (· < d)) l ∧ Fits (A.filter (d < ·)) r

/-! ## The rotations and `balance`, case by case -/

@[simp] theorem height_nil : height Tree.nil = 0 := rfl

@[simp] theorem height_node (d h : Int) (l r : Tree) : height (Tree.node d h l r) = h := rfl

theorem rotateLeft_node (xd xh : Int) (xl : Tree) (yd yh : Int) (yl yr : Tree) :
    rotateLeft (Tree.node xd xh xl (Tree.node yd yh yl yr)) =
      some (Tree.node yd (1 + max (1 + max (height xl) (height yl)) (height yr))
        (Tree.node xd (1 + max (height xl) (height yl)) xl yl) yr) := rfl

theorem rotateRight_node (yd yh xd xh : Int) (xl xr yr : Tree) :
    rotateRight (Tree.node yd yh (Tree.node xd xh xl xr) yr) =
      some (Tree.node xd (1 + max (height xl) 0) xl Tree.nil) := rfl

theorem balance_node (d h : Int) (l r : Tree) :
    balance (Tree.node d h l r) =
      if height l - height r > 1 then
        if balanceFactor l < 0 then
          (rotateLeft l).bind fun l =>
            rotateRight (Tree.node d (1 + max (height l) (height r)) l r)
        else rotateRight (Tree.node d (1 + max (height l) (height r)) l r)
      else if height l - height r < -1 then
        if balanceFactor r > 0 then
          (rotateRight r).bind fun r =>
            rotateLeft (Tree.node d (1 + max (height l) (height r)) l r)
        else rotateLeft (Tree.node d (1 + max (height l) (height r)) l r)
      else some (Tree.node d (1 + max (height l) (height r)) l r) := rfl

theorem height_nonneg : ∀ t : Tree, HeightsOK t → 0 ≤ height t
  | Tree.nil, _ => le_refl _
  | Tree.node _ h l r, ok => by
    have hl := height_nonneg l ok.2.1
    have hh : h = 1 + max (height l) (height r) := ok.1
    rw [height_node]
    omega

theorem balance_cases (d h : Int) (l r : Tree) (okl : HeightsOK l) (okr : HeightsOK r) :
    ∃ t, balance (Tree.node d h l r) = some t ∧ BalanceCase d l r t := by
  have hl0 := height_nonneg l okl
  have hr0 := height_nonneg r okr
  by_cases c1 : 1 < height l - height r
  · cases l with
    | nil => rw [height_nil] at c1; omega
    | node xd xh xl xr =>
      have hxl0 := height_nonneg xl okl.2.1
      have hxr0 := height_nonneg xr okl.2.2
      by_cases c2 : height xl - height xr < 0
      · cases xr with
        | nil => rw [height_nil] at c2; omega
        | node zd zh zl zr =>
          refine ⟨_, ?_, BalanceCase.leftRight xd xh zd zh xl zl zr rfl c1 ?_⟩
          · rw [balance_node, if_pos c1, if_pos (by simpa [balanceFactor] using c2),
              rotateLeft_node]
            rfl
          · rw [height_node] at c2; omega
      · refine ⟨_, ?_, BalanceCase.leftLeft xd xh xl xr rfl c1 (by omega)⟩
        rw [balance_node, if_pos c1, if_neg (by simpa [balanceFactor] using c2),
          rotateRight_node]
  · by_cases c3 : height l - height r < -1
    · cases r with
      | nil => rw [height_nil] at c3; omega
      | node xd xh xl xr =>
        have hxl0 := height_nonneg xl okr.2.1
        have hxr0 := height_nonneg xr okr.2.2
        by_cases c4 : height xl - height xr > 0
        · cases xl with
          | nil => rw [height_nil] at c4; omega
          | node zd zh zl zr =>
            refine ⟨_, ?_, BalanceCase.rightLeft xd xh zd zh zl zr xr rfl c3 ?_⟩
            · rw [balance_node, if_neg c1, if_pos c3,
                if_pos (by simpa [balanceFactor] using c4), rotateRight_node]
              rfl
            · rw [height_node] at c4; omega
        · refine ⟨_, ?_, BalanceCase.rightRight xd xh xl xr rfl c3 (by omega)⟩
          rw [balance_node, if_neg c1, if_pos c3, if_neg (by simpa [balanceFactor] using c4),
            rotateLeft_node]
    · refine ⟨_, ?_, BalanceCase.keep (by omega) (by omega)⟩
      rw [balance_node, if_neg c1, if_neg c3]

theorem BalanceCase.heightsOK {d : Int} {l r t : Tree} (c : BalanceCase d l r t)
    (okl : HeightsOK l) (okr : HeightsOK r) : HeightsOK t := by
  cases c with
  | keep h1 h2 => exact ⟨rfl, okl, okr⟩
  | leftLeft xd xh xl xr el h1 h2 =>
    subst el
    exact ⟨rfl, okl.2.1, trivial⟩
  | leftRight xd xh zd zh xl zl zr el h1 h2 =>
    subst el
    exact ⟨rfl, ⟨rfl, okl.2.1, okl.2.2.2.1⟩, trivial⟩
  | rightRight xd xh xl xr er h1 h2 =>
    subst er
    exact ⟨rfl, ⟨rfl, okl, okr.2.1⟩, okr.2.2⟩
  | rightLeft xd xh zd zh zl zr xr er h1 h2 =>
    subst er
    exact ⟨rfl, ⟨rfl, okl, okr.2.1.2.1⟩, trivial⟩

/-- Whatever `balance` returns, its inorder sequence is the input's with some values possibly
left out: the order of the values that remain is unchanged. -/
theorem BalanceCase.inorder_sublist {d : Int} {l r t : Tree} (c : BalanceCase d l r t) :
    (inorder t).Sublist (inorder l ++ d :: inorder r) := by
  cases c with
  | keep h1 h2 => exact List.Sublist.refl _
  | leftLeft xd xh xl xr el h1 h2 =>
    subst el
    simp only [inorder, List.append_nil, List.append_assoc, List.cons_append]
    exact List.Sublist.append_left (List.Sublist.cons₂ _ (List.nil_sublist _)) _
  | leftRight xd xh zd zh xl zl zr el h1 h2 =>
    subst el
    simp only [inorder, List.append_nil, List.append_assoc, List.cons_append]
    exact List.Sublist.append_left (List.Sublist.cons₂ _
      (List.Sublist.append_left (List.Sublist.cons₂ _ (List.nil_sublist _)) _)) _
  | rightRight xd xh xl xr er h1 h2 =>
    subst er
    simp only [inorder, List.append_assoc, List.cons_append]
    exact List.Sublist.refl _
  | rightLeft xd xh zd zh zl zr xr er h1 h2 =>
    subst er
    simp only [inorder, List.append_nil, List.append_assoc, List.cons_append]
    exact List.Sublist.append_left (List.Sublist.cons₂ _
      (List.Sublist.append_left (List.Sublist.cons₂ _ (List.nil_sublist _)) _)) _

theorem sorted_node {d : Int} {a b : List Int} (ha : a.Sorted (· < ·)) (hb : b.Sorted (· < ·))
    (hlt : ∀ x ∈ a, x < d) (hgt : ∀ x ∈ b, d < x) : (a ++ d :: b).Sorted (· < ·) := by
  refine List.pairwise_append.2 ⟨ha, List.pairwise_cons.2 ⟨hgt, hb⟩, ?_⟩
  intro x hx y hy
  rcases List.mem_cons.1 hy with rfl | hy
  · exact hlt x hx
  · exact lt_trans (hlt x hx) (hgt y hy)

theorem sorted_node_iff {d : Int} {a b : List Int} :
    (a ++ d :: b).Sorted (· < ·) ↔
      a.Sorted (· < ·) ∧ b.Sorted (· < ·) ∧ (∀ x ∈ a, x < d) ∧ (∀ x ∈ b, d < x) := by
  constructor
  · intro h
    have h1 := List.pairwise_append.1 h
    have h2 := List.pairwise_cons.1 h1.2.1
    exact ⟨h1.1, h2.2, fun x hx => h1.2.2 x hx d (List.mem_cons_self _ _), h2.1⟩
  · rintro ⟨ha, hb, hlt, hgt⟩
    exact sorted_node ha hb hlt hgt

theorem ordered_iff_sorted : ∀ t : Tree, Ordered t ↔ (inorder t).Sorted (· < ·)
  | Tree.nil => by simp [Ordered, inorder]
  | Tree.node d h l r => by
    rw [inorder, sorted_node_iff, ← ordered_iff_sorted l, ← ordered_iff_sorted r]
    simp only [Ordered]
    tauto

/-- One call of the recursive `insert` on a tree with correct cached heights and a strictly
ascending inorder sequence: it returns a tree, the tree again has both properties, and its
values are among the old values and the inserted one. -/
theorem insert_invariants : ∀ (t : Tree) (v : Int), HeightsOK t → (inorder t).Sorted (· < ·) →
    ∃ t', insert t v = some t' ∧ HeightsOK t' ∧ (inorder t').Sorted (· < ·) ∧
      ∀ x ∈ inorder t', x ∈ inorder t ∨ x = v
  | Tree.nil, v, _, _ => by
    refine ⟨Tree.leaf v, rfl, ⟨rfl, trivial, trivial⟩, ?_, ?_⟩
    · simp [Tree.leaf, inorder]
    · simp [Tree.leaf, inorder]
  | Tree.node d h l r, v, ok, so => by
    obtain ⟨sl, sr, hlt, hgt⟩ := sorted_node_iff.1 so
    by_cases c1 : v < d
    · obtain ⟨l', e, okl, sl', sub⟩ := insert_invariants l v ok.2.1 sl
      obtain ⟨t, eb, bc⟩ := balance_cases d h l' r okl ok.2.2
      refine ⟨t, ?_, bc.heightsOK okl ok.2.2, ?_, ?_⟩
      · rw [insert, if_pos c1, e]; exact eb
      · refine List.Pairwise.sublist bc.inorder_sublist (sorted_node sl' sr ?_ hgt)
        intro x hx
        rcases sub x hx with h1 | h1
        · exact hlt x h1
        · exact h1 ▸ c1
      · intro x hx
        have := bc.inorder_sublist.subset hx
        simp only [List.mem_append, List.mem_cons, inorder] at this ⊢
        rcases this with h1 | h1 | h1
        · rcases sub x h1 with h2 | h2
          · exact Or.inl (Or.inl h2)
          · exact Or.inr h2
        · exact Or.inl (Or.inr (Or.inl h1))
        · exact Or.inl (Or.inr (Or.inr h1))
    · by_cases c2 : v > d
      · obtain ⟨r', e, okr, sr', sub⟩ := insert_invariants r v ok.2.2 sr
        obtain ⟨t, eb, bc⟩ := balance_cases d h l r' ok.2.1 okr
        refine ⟨t, ?_, bc.heightsOK ok.2.1 okr, ?_, ?_⟩
        · rw [insert, if_neg c1, if_pos c2, e]; exact eb
        · refine List.Pairwise.sublist bc.inorder_sublist (sorted_node sl sr' hlt ?_)
          intro x hx
          rcases sub x hx with h1 | h1
          · exact hgt x h1
          · exact h1 ▸ c2
        · intro x hx
          have := bc.inorder_sublist.subset hx
          simp only [List.mem_append, List.mem_cons, inorder] at this ⊢
          rcases this with h1 | h1 | h1
          · exact Or.inl (Or.inl h1)
          · exact Or.inl (Or.inr (Or.inl h1))
          · rcases sub x h1 with h2 | h2
            · exact Or.inl (Or.inr (Or.inr h2))
            · exact Or.inr h2
      · refine ⟨Tree.node d h l r, ?_, ok, so, fun x hx => Or.inl hx⟩
        rw [insert, if_neg c1, if_neg c2]

/-- Every list of values builds a tree (no null pointer is dereferenced on the way), and the
tree has correct cached heights, a strictly ascending inorder sequence, and only inserted
values. -/
theorem insertAll_invariants : ∀ (xs : List Int) (t : Tree), HeightsOK t →
    (inorder t).Sorted (· < ·) →
    ∃ t', insertAll t xs = some t' ∧ HeightsOK t' ∧ (inorder t').Sorted (· < ·) ∧
      ∀ x ∈ inorder t', x ∈ inorder t ∨ x ∈ xs
  | [], t, ok, so => ⟨t, rfl, ok, so, fun x hx => Or.inl hx⟩
  | v :: rest, t, ok, so => by
    obtain ⟨t1, e1, ok1, so1, sub1⟩ := insert_invariants t v ok so
    obtain ⟨t2, e2, ok2, so2, sub2⟩ := insertAll_invariants rest t1 ok1 so1
    refine ⟨t2, ?_, ok2, so2, ?_⟩
    · rw [insertAll, e1]; exact e2
    · intro x hx
      rcases sub2 x hx with h1 | h1
      · rcases sub1 x h1 with h2 | h2
        · exact Or.inl h2
        · exact Or.inr (h2 ▸ List.mem_cons_self _ _)
      · exact Or.inr (List.mem_cons_of_mem _ h1)

theorem build_invariants (xs : List Int) :
    ∃ t, build xs = some t ∧ HeightsOK t ∧ (inorder t).Sorted (· < ·) ∧
      ∀ x ∈ inorder t, x ∈ xs := by
  obtain ⟨t, e, ok, so, sub⟩ := insertAll_invariants xs Tree.nil trivial List.sorted_nil
  refine ⟨t, e, ok, so, fun x hx => ?_⟩
  rcases sub x hx with h | h
  · simp [inorder] at h
  · exact h

theorem height_eq_depth : ∀ t : Tree, HeightsOK t → height t = (depth t : Int)
  | Tree.nil, _ => rfl
  | Tree.node _ h l r, ok => by
    have hl := height_eq_depth l ok.2.1
    have hr := height_eq_depth r ok.2.2
    have hh : h = 1 + max (height l) (height r) := ok.1
    rw [height_node, depth, hh, hl, hr]
    push_cast
    rfl

/-- On a node that already has a correct cached height and children whose heights differ by
at most one, `balance` changes nothing. -/
theorem balance_unchanged (d h : Int) (l r : Tree) (hh : h = 1 + max (height l) (height r))
    (h1 : -1 ≤ height l - height r) (h2 : height l - height r ≤ 1) :
    balance (Tree.node d h l r) = some (Tree.node d h l r) := by
  rw [balance_node, if_neg (by omega), if_neg (by omega), ← hh]

/-! ## The height bound -/

theorem fibBound_mono {a b : Int} (h : a ≤ b) : fibBound a ≤ fibBound b :=
  Nat.fib_mono (by omega)

theorem fibBound_nonpos {a : Int} (h : a ≤ 0) : fibBound a = 1 := by
  have e : a.toNat = 0 := by omega
  rw [fibBound, e]
  rfl

theorem fibBound_succ {k : Int} (hk : 0 ≤ k) :
    fibBound (k + 1) = fibBound k + fibBound (k - 1) := by
  obtain ⟨n, rfl⟩ := Int.eq_ofNat_of_zero_le hk
  cases n with
  | zero => rfl
  | succ m =>
    have e1 : ((m + 1 : Nat) + 1 : Int).toNat + 2 = (m + 2) + 2 := by omega
    have e2 : ((m + 1 : Nat) : Int).toNat + 2 = (m + 2) + 1 := by omega
    have e3 : ((m + 1 : Nat) - 1 : Int).toNat + 2 = m + 2 := by omega
    rw [fibBound, fibBound, fibBound, e1, e2, e3, Nat.fib_add_two (n := m + 2)]
    omega

/-- Two neighbouring regions that hold enough values for heights `M` and `M - 1` hold,
together with the value between them, enough for any height up to `M + 1`. -/
theorem fibBound_join {k M : Int} {ca cb : Nat} (hk : k ≤ M + 1) (hM : 0 ≤ M)
    (h1 : fibBound M ≤ ca + 1) (h2 : fibBound (M - 1) ≤ cb + 1) :
    fibBound k ≤ ca + 1 + cb + 1 := by
  have h3 := fibBound_mono hk
  rw [fibBound_succ hM] at h3
  omega

theorem card_split {A : Finset Int} {d : Int} (hd : d ∈ A) :
    (A.filter (· < d)).card + 1 + (A.filter (d < ·)).card ≤ A.card := by
  have h1 := Finset.filter_card_add_filter_neg_card_eq_card (s := A) (fun x => x < d)
  have h2 : Insert.insert d (A.filter (d < ·)) ⊆ A.filter (fun x => ¬ x < d) := by
    intro x hx
    rcases Finset.mem_insert.1 hx with rfl | hx
    · exact Finset.mem_filter.2 ⟨hd, lt_irrefl _⟩
    · have := Finset.mem_filter.1 hx
      exact Finset.mem_filter.2 ⟨this.1, not_lt.2 (le_of_lt this.2)⟩
  have h3 := Finset.card_le_card h2
  rw [Finset.card_insert_of_not_mem (by simp)] at h3
  omega

/-- The count of a region split at `d`, with the two parts bounded below by subregions. -/
theorem card_split_le {A Al Ar : Finset Int} {d : Int} (hd : d ∈ A)
    (hl : Al ⊆ A.filter (· < d)) (hr : Ar ⊆ A.filter (d < ·)) :
    Al.card + 1 + Ar.card ≤ A.card := by
  have h1 := card_split hd
  have h2 := Finset.card_le_card hl
  have h3 := Finset.card_le_card hr
  omega

theorem Fits.mono : ∀ (t : Tree) {A B : Finset Int}, A ⊆ B → Fits A t → Fits B t
  | Tree.nil, _, _, _, _ => trivial
  | Tree.node _ _ l r, _, _, hAB, f =>
    ⟨hAB f.1, le_trans f.2.1 (Nat.add_le_add_right (Finset.card_le_card hAB) 1),
      le_trans f.2.2.1 (Nat.add_le_add_right
        (Finset.card_le_card (Finset.filter_subset_filter _ hAB)) 1),
      Fits.mono l (Finset.filter_subset_filter _ hAB) f.2.2.2.1,
      Fits.mono r (Finset.filter_subset_filter _ hAB) f.2.2.2.2⟩

theorem Fits.bound : ∀ (t : Tree) {A : Finset Int}, Fits A t → fibBound (height t) ≤ A.card + 1
  | Tree.nil, A, _ => by rw [height_nil, fibBound_nonpos (le_refl 0)]; omega
  | Tree.node _ _ _ _, _, f => f.2.1

theorem BalanceCase.height_le {d : Int} {l r t : Tree} (c : BalanceCase d l r t)
    (okl : HeightsOK l) (okr : HeightsOK r) : height t ≤ 1 + max (height l) (height r) := by
  have hl0 := height_nonneg l okl
  have hr0 := height_nonneg r okr
  cases c with
  | keep h1 h2 => exact le_refl _
  | leftLeft xd xh xl xr el h1 h2 =>
    subst el
    obtain ⟨hxh, okxl, okxr⟩ := okl
    have hxl0 := height_nonneg xl okxl
    simp only [height_node] at *
    omega
  | leftRight xd xh zd zh xl zl zr el h1 h2 =>
    subst el
    obtain ⟨hxh, okxl, hzh, okzl, okzr⟩ := okl
    simp only [height_node] at *
    omega
  | rightRight xd xh xl xr er h1 h2 =>
    subst er
    obtain ⟨hxh, okxl, okxr⟩ := okr
    simp only [height_node] at *
    omega
  | rightLeft xd xh zd zh zl zr xr er h1 h2 =>
    subst er
    obtain ⟨hxh, ⟨hzh, okzl, okzr⟩, okxr⟩ := okr
    simp only [height_node] at *
    omega

theorem bound_of_subset {A B : Finset Int} {a b : Int} (hab : a ≤ b) (hAB : B ⊆ A)
    (hb : fibBound b ≤ B.card + 1) : fibBound a ≤ A.card + 1 :=
  le_trans (fibBound_mono hab) (le_trans hb (Nat.add_le_add_right (Finset.card_le_card hAB) 1))

theorem BalanceCase.fits {A : Finset Int} {d : Int} {l r t : Tree} (c : BalanceCase d l r t)
    (okl : HeightsOK l) (okr : HeightsOK r) (hd : d ∈ A)
    (fl : Fits (A.filter (· < d)) l) (fr : Fits (A.filter (d < ·)) r)
    (hq : fibBound (height r - 2) ≤ (A.filter (· < d)).card + 1) : Fits A t := by
  have hl0 := height_nonneg l okl
  have hr0 := height_nonneg r okr
  have bl := Fits.bound l fl
  have br := Fits.bound r fr
  cases c with
  | keep h1 h2 =>
    refine ⟨hd, ?_, bound_of_subset (by omega) (Finset.Subset.refl _) bl, fl, fr⟩
    have s := card_split hd
    rcases le_total (height r) (height l) with h | h
    · have j := fibBound_join (k := 1 + max (height l) (height r)) (M := height l) (by omega)
        hl0 bl (le_trans (fibBound_mono (by omega)) br)
      omega
    · have j := fibBound_join (k := 1 + max (height l) (height r)) (M := height r) (by omega)
        hr0 br (le_trans (fibBound_mono (by omega)) bl)
      omega
  | leftLeft xd xh xl xr el h1 h2 =>
    subst el
    obtain ⟨hxd, hxb, -, fxl, -⟩ := fl
    obtain ⟨hxh, okxl, okxr⟩ := okl
    have hxl0 := height_nonneg xl okxl
    refine ⟨(Finset.mem_filter.1 hxd).1, ?_, ?_, Fits.mono xl ?_ fxl, trivial⟩
    · exact bound_of_subset (by omega) (Finset.filter_subset _ _) hxb
    · rw [height_nil, fibBound_nonpos (by omega)]; omega
    · exact Finset.filter_subset_filter _ (Finset.filter_subset _ _)
  | leftRight xd xh zd zh xl zl zr el h1 h2 =>
    subst el
    obtain ⟨hxd, hxb, hxq, fxl, hzd, -, hzq, fzl, -⟩ := fl
    obtain ⟨hxh, okxl, hzh, okzl, okzr⟩ := okl
    have hxl0 := height_nonneg xl okxl
    have hzl0 := height_nonneg zl okzl
    have hzr0 := height_nonneg zr okzr
    have bzl := Fits.bound zl fzl
    simp only [Finset.mem_filter, height_node] at hxd hzd hxh hxq
    have hM1 : fibBound (zh - 1 - 1) ≤
        (((A.filter (· < d)).filter (xd < ·)).filter (· < zd)).card + 1 := by
      rcases le_total (height zr) (height zl) with h | h
      · exact le_trans (fibBound_mono (by omega)) bzl
      · exact le_trans (fibBound_mono (by omega)) hzq
    have sL : (A.filter (· < d)).filter (· < xd) ⊆ (A.filter (· < zd)).filter (· < xd) := by
      intro x hx
      simp only [Finset.mem_filter, and_assoc] at hx ⊢
      obtain ⟨hA, h3, h4⟩ := hx
      exact ⟨hA, by omega, h4⟩
    have sR : ((A.filter (· < d)).filter (xd < ·)).filter (· < zd) ⊆
        (A.filter (· < zd)).filter (xd < ·) := by
      intro x hx
      simp only [Finset.mem_filter, and_assoc] at hx ⊢
      obtain ⟨hA, h3, h4, h5⟩ := hx
      exact ⟨hA, h5, h4⟩
    have hxB : xd ∈ A.filter (· < zd) := Finset.mem_filter.2 ⟨hxd.1, hzd.2⟩
    refine ⟨hzd.1.1, ?_, ?_, ⟨hxB, ?_, ?_, Fits.mono xl sL fxl, Fits.mono zl sR fzl⟩, trivial⟩
    · exact bound_of_subset (by omega) (Finset.filter_subset _ _) hxb
    · rw [height_nil, fibBound_nonpos (by omega)]; omega
    · have j := fibBound_join (k := 1 + max (height xl) (height zl)) (M := zh - 1) (by omega)
        (by omega) hxq hM1
      have s := card_split_le hxB sL sR
      omega
    · exact bound_of_subset (by omega) sL hxq
  | rightRight xd xh xl xr er h1 h2 =>
    subst er
    obtain ⟨hxd, hxb, hxq, fxl, fxr⟩ := fr
    obtain ⟨hxh, okxl, okxr⟩ := okr
    have hxl0 := height_nonneg xl okxl
    have hxr0 := height_nonneg xr okxr
    have bxl := Fits.bound xl fxl
    have bxr := Fits.bound xr fxr
    simp only [Finset.mem_filter, height_node] at hxd hxh h1 hq
    have sL : A.filter (· < d) ⊆ (A.filter (· < xd)).filter (· < d) := by
      intro x hx
      simp only [Finset.mem_filter, and_assoc] at hx ⊢
      obtain ⟨hA, h3⟩ := hx
      exact ⟨hA, by omega, h3⟩
    have sR : (A.filter (d < ·)).filter (· < xd) ⊆ (A.filter (· < xd)).filter (d < ·) := by
      intro x hx
      simp only [Finset.mem_filter, and_assoc] at hx ⊢
      obtain ⟨hA, h3, h4⟩ := hx
      exact ⟨hA, h4, h3⟩
    have sX : (A.filter (d < ·)).filter (xd < ·) ⊆ A.filter (xd < ·) :=
      Finset.filter_subset_filter _ (Finset.filter_subset _ _)
    have sB : A.filter (· < d) ⊆ A.filter (· < xd) :=
      fun x hx => (Finset.mem_filter.1 (sL hx)).1
    have hdB : d ∈ A.filter (· < xd) := Finset.mem_filter.2 ⟨hd, hxd.2⟩
    have hy1 : fibBound (1 + max (height l) (height xl)) ≤ (A.filter (· < xd)).card + 1 := by
      have s := card_split_le hdB sL sR
      rcases lt_or_le (max (height l) (height xl)) (height xr) with h | h
      · have j := fibBound_join (k := 1 + max (height l) (height xl)) (M := height xr - 1)
          (by omega) (by omega) (le_trans (fibBound_mono (by omega)) hq)
          (le_trans (fibBound_mono (by omega)) hxq)
        omega
      · have j := fibBound_join (k := 1 + max (height l) (height xl)) (M := height xl)
          (by omega) hxl0 bxl (le_trans (fibBound_mono (by omega)) hq)
        omega
    have fy : Fits (A.filter (· < xd)) (Tree.node d (1 + max (height l) (height xl)) l xl) :=
      ⟨hdB, hy1, bound_of_subset (by omega) sL hq, Fits.mono l sL fl, Fits.mono xl sR fxl⟩
    refine ⟨hxd.1, ?_, bound_of_subset (by omega) sB hq, fy, Fits.mono xr sX fxr⟩
    have s := card_split_le hxd.1 (Finset.Subset.refl _) sX
    rcases le_or_lt (1 + max (height l) (height xl)) (height xr) with h | h
    · have j := fibBound_join
        (k := 1 + max (1 + max (height l) (height xl)) (height xr)) (M := height xr)
        (by omega) hxr0 bxr (bound_of_subset (by omega) sB hq)
      omega
    · have j := fibBound_join
        (k := 1 + max (1 + max (height l) (height xl)) (height xr))
        (M := 1 + max (height l) (height xl))
        (by omega) (by omega) hy1 (le_trans (fibBound_mono (by omega)) bxr)
      omega
  | rightLeft xd xh zd zh zl zr xr er h1 h2 =>
    subst er
    obtain ⟨hxd, hxb, -, ⟨hzd, -, hzq, fzl, -⟩, -⟩ := fr
    obtain ⟨hxh, ⟨hzh, okzl, okzr⟩, okxr⟩ := okr
    have hzl0 := height_nonneg zl okzl
    have hzr0 := height_nonneg zr okzr
    have hxr0 := height_nonneg xr okxr
    have bzl := Fits.bound zl fzl
    simp only [Finset.mem_filter, height_node] at hxd hzd hxh h1 hq
    have hM1 : fibBound (zh - 1 - 1) ≤
        (((A.filter (d < ·)).filter (· < xd)).filter (· < zd)).card + 1 := by
      rcases le_total (height zr) (height zl) with h | h
      · exact le_trans (fibBound_mono (by omega)) bzl
      · exact le_trans (fibBound_mono (by omega)) hzq
    have sL : A.filter (· < d) ⊆ (A.filter (· < zd)).filter (· < d) := by
      intro x hx
      simp only [Finset.mem_filter, and_assoc] at hx ⊢
      obtain ⟨hA, h3⟩ := hx
      exact ⟨hA, by omega, h3⟩
    have sR : ((A.filter (d < ·)).filter (· < xd)).filter (· < zd) ⊆
        (A.filter (· < zd)).filter (d < ·) := by
      intro x hx
      simp only [Finset.mem_filter, and_assoc] at hx ⊢
      obtain ⟨hA, h3, h4, h5⟩ := hx
      exact ⟨hA, h5, h3⟩
    have hdB : d ∈ A.filter (· < zd) := Finset.mem_filter.2 ⟨hd, hzd.1.2⟩
    refine ⟨hzd.1.1, ?_, ?_, ⟨hdB, ?_, ?_, Fits.mono l sL fl, Fits.mono zl sR fzl⟩, trivial⟩
    · exact bound_of_subset (by omega) (Finset.filter_subset _ _) hxb
    · rw [height_nil, fibBound_nonpos (by omega)]; omega
    · have j := fibBound_join (k := 1 + max (height l) (height zl)) (M := zh - 1) (by omega)
        (by omega) (le_trans (fibBound_mono (by omega)) hq) hM1
      have s := card_split_le hdB sL sR
      omega
    · exact bound_of_subset (by omega) sL hq

/-- One call of the recursive `insert` of a counted value: it returns a tree with correct
cached heights that still fits the count, at most one higher than before. -/
theorem insert_fits : ∀ (t : Tree) (v : Int) (A : Finset Int), HeightsOK t → Fits A t →
    v ∈ A → ∃ t', insert t v = some t' ∧ HeightsOK t' ∧ Fits A t' ∧ height t' ≤ height t + 1
  | Tree.nil, v, A, _, _, hv => by
    refine ⟨Tree.leaf v, rfl, ⟨rfl, trivial, trivial⟩, ⟨hv, ?_, ?_, trivial, trivial⟩, ?_⟩
    · have h1 : 1 ≤ A.card := Finset.card_pos.2 ⟨v, hv⟩
      have h2 : fibBound 1 = 2 := rfl
      omega
    · rw [height_nil, fibBound_nonpos (by omega)]; omega
    · simp [Tree.leaf]
  | Tree.node d h l r, v, A, ok, f, hv => by
    obtain ⟨hh, okl, okr⟩ := ok
    obtain ⟨hd, hb, hq, fl, fr⟩ := f
    by_cases c1 : v < d
    · obtain ⟨l', e, okl', fl', hg⟩ :=
        insert_fits l v (A.filter (· < d)) okl fl (Finset.mem_filter.2 ⟨hv, c1⟩)
      obtain ⟨t, eb, bc⟩ := balance_cases d h l' r okl' okr
      refine ⟨t, ?_, bc.heightsOK okl' okr,
        bc.fits okl' okr hd fl' fr (le_trans (fibBound_mono (by omega)) hq), ?_⟩
      · rw [insert, if_pos c1, e]; exact eb
      · have := bc.height_le okl' okr
        rw [height_node]
        omega
    · by_cases c2 : v > d
      · obtain ⟨r', e, okr', fr', hg⟩ :=
          insert_fits r v (A.filter (d < ·)) okr fr (Finset.mem_filter.2 ⟨hv, c2⟩)
        obtain ⟨t, eb, bc⟩ := balance_cases d h l r' okl okr'
        refine ⟨t, ?_, bc.heightsOK okl okr',
          bc.fits okl okr' hd fl fr' (le_trans (fibBound_mono (by omega)) hq), ?_⟩
        · rw [insert, if_neg c1, if_pos c2, e]; exact eb
        · have := bc.height_le okl okr'
          rw [height_node]
          omega
      · refine ⟨Tree.node d h l r, ?_, ⟨hh, okl, okr⟩, ⟨hd, hb, hq, fl, fr⟩, by omega⟩
        rw [insert, if_neg c1, if_neg c2]

theorem insertAll_fits : ∀ (xs : List Int) (t : Tree) (A : Finset Int), HeightsOK t →
    Fits A t → ∃ t', insertAll t xs = some t' ∧ HeightsOK t' ∧ Fits (A ∪ xs.toFinset) t'
  | [], t, A, ok, f => ⟨t, rfl, ok, by simpa using f⟩
  | v :: rest, t, A, ok, f => by
    obtain ⟨t1, e1, ok1, f1, -⟩ := insert_fits t v (A ∪ {v}) ok
      (Fits.mono t Finset.subset_union_left f) (by simp)
    obtain ⟨t2, e2, ok2, f2⟩ := insertAll_fits rest t1 (A ∪ {v}) ok1 f1
    refine ⟨t2, ?_, ok2, Fits.mono t2 ?_ f2⟩
    · rw [insertAll, e1]; exact e2
    · intro x hx
      simp only [Finset.mem_union, Finset.mem_singleton, List.mem_toFinset, List.mem_cons,
        List.toFinset_cons, Finset.mem_insert] at hx ⊢
      tauto

/-! ## Rotations and null pointers -/

theorem rotateRight_eq_none (y : Tree) : rotateRight y = none ↔ hasLeft y = false := by
  match y with
  | Tree.nil => simp [rotateRight, hasLeft]
  | Tree.node _ _ Tree.nil _ => simp [rotateRight, hasLeft]
  | Tree.node yd yh (Tree.node xd xh xl xr) yr => simp [rotateRight_node, hasLeft]

theorem rotateLeft_eq_none (x : Tree) : rotateLeft x = none ↔ hasRight x = false := by
  match x with
  | Tree.nil => simp [rotateLeft, hasRight]
  | Tree.node _ _ _ Tree.nil => simp [rotateLeft, hasRight]
  | Tree.node xd xh xl (Tree.node yd yh yl yr) => simp [rotateLeft_node, hasRight]

/-! ## Ascending insertions -/

theorem insert_max : ∀ (t : Tree) (v : Int), HeightsOK t → Balanced t →
    (∀ x ∈ inorder t, x < v) →
    ∃ t', insert t v = some t' ∧ HeightsOK t' ∧ Balanced t' ∧ inorder t' = inorder t ++ [v] ∧
      (height t' = height t ∨
        (height t' = height t + 1 ∧ (t = Tree.nil ∨ balanceFactor t' < 0)))
  | Tree.nil, v, _, _, _ =>
    ⟨Tree.leaf v, rfl, ⟨rfl, trivial, trivial⟩, ⟨by decide, trivial, trivial⟩, rfl,
      Or.inr ⟨rfl, Or.inl rfl⟩⟩
  | Tree.node d h l r, v, ok, bal, hlt => by
    obtain ⟨hh, okl, okr⟩ := ok
    obtain ⟨⟨b1, b2⟩, ball, balr⟩ := bal
    have hd : d < v := hlt d (by simp [inorder])
    obtain ⟨r', e, okr', balr', ino, hg⟩ :=
      insert_max r v okr balr (fun x hx => hlt x (by simp [inorder, hx]))
    obtain ⟨t, eb, bc⟩ := balance_cases d h l r' okl okr'
    have hl0 := height_nonneg l okl
    have hr0 := height_nonneg r okr
    have hins : insert (Tree.node d h l r) v = some t := by
      rw [insert, if_neg (by omega), if_pos hd, e]; exact eb
    refine ⟨t, hins, bc.heightsOK okl okr', ?_⟩
    cases bc with
    | keep h1 h2 =>
      refine ⟨⟨⟨h1, h2⟩, ball, balr'⟩, by simp [inorder, ino], ?_⟩
      simp only [height_node, balanceFactor]
      omega
    | leftLeft xd xh xl xr el h1 h2 => omega
    | leftRight xd xh zd zh xl zl zr el h1 h2 => omega
    | rightRight xd xh xl xr er h1 h2 =>
      subst er
      obtain ⟨hxh, okxl, okxr⟩ := okr'
      obtain ⟨⟨c1, c2⟩, balxl, balxr⟩ := balr'
      have hxl0 := height_nonneg xl okxl
      have hxr0 := height_nonneg xr okxr
      simp only [height_node, balanceFactor] at hg h1
      have hrn : r ≠ Tree.nil := by
        rintro rfl
        simp only [height_nil] at *
        omega
      have hbf : height xl - height xr < 0 := by
        rcases hg with hg | ⟨_, hg | hg⟩
        · omega
        · exact absurd hg hrn
        · exact hg
      refine ⟨⟨?_, ⟨?_, ball, balxl⟩, balxr⟩, ?_, ?_⟩
      · simp only [height_node]; omega
      · omega
      · have ino' : inorder xl ++ xd :: inorder xr = inorder r ++ [v] := ino
        simp only [inorder, List.append_assoc, List.cons_append]
        rw [ino']
      · simp only [height_node]; omega
    | rightLeft xd xh zd zh zl zr xr er h1 h2 =>
      subst er
      obtain ⟨hxh, ⟨hzh, okzl, okzr⟩, okxr⟩ := okr'
      have hxr0 := height_nonneg xr okxr
      simp only [height_node, balanceFactor] at hg h1
      have hrn : r ≠ Tree.nil := by
        rintro rfl
        simp only [height_nil] at *
        omega
      rcases hg with hg | ⟨_, hg | hg⟩
      · omega
      · exact absurd hg hrn
      · omega

theorem insertAll_ascending : ∀ (xs : List Int) (t : Tree), HeightsOK t → Balanced t →
    (inorder t ++ xs).Sorted (· < ·) →
    ∃ t', insertAll t xs = some t' ∧ HeightsOK t' ∧ Balanced t' ∧ inorder t' = inorder t ++ xs
  | [], t, ok, bal, _ => ⟨t, rfl, ok, bal, by simp⟩
  | v :: rest, t, ok, bal, so => by
    obtain ⟨t1, e1, ok1, bal1, ino1, -⟩ :=
      insert_max t v ok bal (sorted_node_iff.1 so).2.2.1
    obtain ⟨t2, e2, ok2, bal2, ino2⟩ := insertAll_ascending rest t1 ok1 bal1
      (by rw [ino1, List.append_assoc]; exact so)
    refine ⟨t2, ?_, ok2, bal2, ?_⟩
    · rw [insertAll, e1]; exact e2
    · rw [ino2, ino1, List.append_assoc]; rfl

/-! ## The level-order traversal -/

theorem atDepth_eq_nil : ∀ (t : Tree) (k : Nat), depth t ≤ k → atDepth t k = []
  | Tree.nil, _, _ => rfl
  | Tree.node _ _ l r, 0, h => by simp [depth] at h
  | Tree.node _ _ l r, k + 1, h => by
    simp only [depth] at h
    rw [atDepth, atDepth_eq_nil l k (by omega), atDepth_eq_nil r k (by omega)]
    rfl

theorem row_eq_nil (q : List Tree) (K : Nat) (h : ∀ t ∈ q, depth t ≤ K) : row q K = [] := by
  induction q with
  | nil => rfl
  | cons t q ih =>
    rw [row, List.flatMap_cons, atDepth_eq_nil t K (h t (List.mem_cons_self _ _))]
    exact ih fun t ht => h t (List.mem_cons_of_mem _ ht)

theorem row_pushChildren (q : List Tree) (l r : Tree) (k : Nat) :
    row (pushChildren q l r) k = row q k ++ (atDepth l k ++ atDepth r k) := by
  unfold pushChildren row
  by_cases hl : l = Tree.nil <;> by_cases hr : r = Tree.nil <;>
    simp [hl, hr, atDepth, List.flatMap_append]

theorem flatMap_range_succ (f : Nat → List (Int × Int)) (K : Nat) :
    (List.range (K + 1)).flatMap f = (List.range K).flatMap f ++ f K := by
  rw [List.range_succ, List.flatMap_append, List.flatMap_singleton]

theorem flatMap_row_cons (d h : Int) (l r : Tree) (q : List Tree) : ∀ K : Nat,
    (List.range (K + 1)).flatMap (row (Tree.node d h l r :: q)) =
      (d, h) :: ((List.range K).flatMap (row (pushChildren q l r)) ++ row q K)
  | 0 => by
    rw [flatMap_range_succ]
    simp [row, atDepth]
  | K + 1 => by
    rw [flatMap_range_succ, flatMap_row_cons d h l r q K, flatMap_range_succ,
      row_pushChildren]
    simp [row, atDepth, List.append_assoc]

theorem levelOrderLoop_eq : ∀ (fuel : Nat) (q : List Tree) (K : Nat),
    (∀ t ∈ q, t ≠ Tree.nil) → (q.map size).sum ≤ fuel → (∀ t ∈ q, depth t ≤ K) →
    levelOrderLoop fuel q = some ((List.range K).flatMap (row q))
  | fuel, [], K, _, _, _ => by
    have : ∀ K : Nat, (List.range K).flatMap (row []) = [] := by
      intro K
      induction K with
      | zero => rfl
      | succ n ih => rw [flatMap_range_succ, ih]; rfl
    rw [this K]
    cases fuel <;> rfl
  | 0, Tree.nil :: q, _, hn, _, _ => absurd rfl (hn _ (List.mem_cons_self _ _))
  | 0, Tree.node d h l r :: q, _, _, hs, _ => by
    simp [size] at hs
  | fuel + 1, Tree.nil :: q, _, hn, _, _ => absurd rfl (hn _ (List.mem_cons_self _ _))
  | fuel + 1, Tree.node d h l r :: q, K, hn, hs, hd => by
    have hq : ∀ t ∈ pushChildren q l r, t ≠ Tree.nil ∧ depth t ≤ K := by
      intro t ht
      have hK := hd _ (List.mem_cons_self _ _)
      simp only [depth] at hK
      unfold pushChildren at ht
      by_cases hl : l = Tree.nil <;> by_cases hr : r = Tree.nil <;>
        simp only [hl, hr, if_true, if_false, List.mem_append, List.mem_singleton] at ht
      · exact ⟨hn t (List.mem_cons_of_mem _ ht), hd t (List.mem_cons_of_mem _ ht)⟩
      · rcases ht with ht | ht
        · exact ⟨hn t (List.mem_cons_of_mem _ ht), hd t (List.mem_cons_of_mem _ ht)⟩
        · subst ht; exact ⟨hr, by omega⟩
      · rcases ht with ht | ht
        · exact ⟨hn t (List.mem_cons_of_mem _ ht), hd t (List.mem_cons_of_mem _ ht)⟩
        · subst ht; exact ⟨hl, by omega⟩
      · rcases ht with (ht | ht) | ht
        · exact ⟨hn t (List.mem_cons_of_mem _ ht), hd t (List.mem_cons_of_mem _ ht)⟩
        · subst ht; exact ⟨hl, by omega⟩
        · subst ht; exact ⟨hr, by omega⟩
    have hsz : ((pushChildren q l r).map size).sum ≤ fuel := by
      have e : ((pushChildren q l r).map size).sum = (q.map size).sum + size l + size r := by
        unfold pushChildren
        by_cases hl : l = Tree.nil <;> by_cases hr : r = Tree.nil <;>
          simp [hl, hr, size, Nat.add_assoc]
      simp only [List.map_cons, List.sum_cons, size] at hs
      omega
    have ih := levelOrderLoop_eq fuel (pushChildren q l r) K (fun t ht => (hq t ht).1) hsz
      (fun t ht => (hq t ht).2)
    have step : levelOrderLoop (fuel + 1) (Tree.node d h l r :: q) =
        (levelOrderLoop fuel (pushChildren q l r)).map fun out => (d, h) :: out := rfl
    rw [step, ih, Option.map_some']
    have h1 := flatMap_row_cons d h l r q K
    rw [flatMap_range_succ, row_eq_nil _ K hd, List.append_nil,
      row_eq_nil q K (fun t ht => hd t (List.mem_cons_of_mem _ ht)), List.append_nil] at h1
    rw [h1]

theorem levels_perm_nodes : ∀ (t : Tree) (K : Nat), depth t ≤ K →
    ((List.range K).flatMap (atDepth t)).Perm (nodes t)
  | Tree.nil, K, _ => by
    have : ∀ K : Nat, (List.range K).flatMap (atDepth Tree.nil) = [] := by
      intro K
      induction K with
      | zero => rfl
      | succ n ih => rw [flatMap_range_succ, ih]; rfl
    rw [this K]
    exact List.Perm.refl _
  | Tree.node d h l r, 0, hK => by simp [depth] at hK
  | Tree.node d h l r, K + 1, hK => by
    simp only [depth] at hK
    have e : (List.range (K + 1)).flatMap (atDepth (Tree.node d h l r)) =
        (d, h) :: (List.range K).flatMap (fun k => atDepth l k ++ atDepth r k) := by
      rw [List.range_succ_eq_map, List.flatMap_cons, List.flatMap_map]
      rfl
    rw [e, nodes]
    refine List.Perm.cons _ ((List.flatMap_append_perm _ _ _).symm.trans ?_)
    exact List.Perm.append (levels_perm_nodes l K (by omega)) (levels_perm_nodes r K (by omega))

/-! ## The claims -/

/-- C1, at the input 30, 20, 10: the insertion of 10 makes the root 30 left-heavy, and the
right rotation returns the node 20 with the old root dropped, so the inorder sequence is
10 20 and the inserted value 30 is lost. -/
theorem build_loses_value :
    build [30, 20, 10] = some (Tree.node 20 2 (Tree.leaf 10) Tree.nil) ∧
      (build [30, 20, 10]).map inorder = some [10, 20] := by
  decide

/-- C2, at the input 10, 20, 30, 40, 50, 25 of `main`: the tree that is built has a root
with balance factor 2, so it is not balanced. -/
theorem build_unbalanced :
    ∃ t, build [10, 20, 30, 40, 50, 25] = some t ∧ balanceFactor t = 2 ∧ ¬ Balanced t :=
  ⟨Tree.node 30 3 (Tree.node 20 2 (Tree.leaf 10) (Tree.leaf 25)) Tree.nil,
    by decide, by decide, by decide⟩

/-- C3: every list of values builds a tree whose inorder sequence is strictly ascending;
equivalently, at every node of it the values on the left are smaller and the values on the
right are larger. -/
theorem build_inorder_sorted (xs : List Int) :
    ∃ t, build xs = some t ∧ (inorder t).Sorted (· < ·) ∧ Ordered t := by
  obtain ⟨t, e, _, so, _⟩ := build_invariants xs
  exact ⟨t, e, so, (ordered_iff_sorted t).2 so⟩

/-- C4: every list of values builds a tree in which every node's cached height is one more
than the larger of its children's heights (0 for an absent child). -/
theorem build_heightsOK (xs : List Int) : ∃ t, build xs = some t ∧ HeightsOK t := by
  obtain ⟨t, e, ok, _⟩ := build_invariants xs
  exact ⟨t, e, ok⟩

/-- C5, at the tree built from 10, 20, 30, 40, 50 and the value 35: the first insertion of
35 takes the Right-Left case, whose right rotation drops the new node, and returns a tree
without 35; the second insertion adds 35 as the right child of the root, so the two results
differ. -/
theorem insert_twice_differs :
    build [10, 20, 30, 40, 50] =
        some (Tree.node 20 3 (Tree.leaf 10) (Tree.node 40 2 (Tree.leaf 30) (Tree.leaf 50))) ∧
      insert (Tree.node 20 3 (Tree.leaf 10) (Tree.node 40 2 (Tree.leaf 30) (Tree.leaf 50))) 35 =
        some (Tree.node 30 3 (Tree.node 20 2 (Tree.leaf 10) Tree.nil) Tree.nil) ∧
      insert (Tree.node 30 3 (Tree.node 20 2 (Tree.leaf 10) Tree.nil) Tree.nil) 35 =
        some (Tree.node 30 3 (Tree.node 20 2 (Tree.leaf 10) Tree.nil) (Tree.leaf 35)) := by
  decide

/-- C6: on a tree that satisfies binary-search-tree order, AVL balance and height correctness
at every node, inserting a value that the tree already holds returns the very same tree
(shape, values and cached heights), and it does return. -/
theorem insert_present : ∀ (t : Tree) (v : Int), Ordered t → Balanced t → HeightsOK t →
    v ∈ inorder t → insert t v = some t
  | Tree.nil, v, _, _, _, hv => by simp [inorder] at hv
  | Tree.node d h l r, v, ho, hb, hh, hv => by
    have hmem : v ∈ inorder l ∨ v = d ∨ v ∈ inorder r := by
      simpa [inorder] using hv
    by_cases c1 : v < d
    · have hl : v ∈ inorder l := by
        rcases hmem with h1 | h1 | h1
        · exact h1
        · omega
        · have := ho.2.1 v h1; omega
      rw [insert, if_pos c1, insert_present l v ho.2.2.1 hb.2.1 hh.2.1 hl]
      exact balance_unchanged d h l r hh.1 hb.1.1 hb.1.2
    · by_cases c2 : v > d
      · have hr : v ∈ inorder r := by
          rcases hmem with h1 | h1 | h1
          · have := ho.1 v h1; omega
          · omega
          · exact h1
        rw [insert, if_neg c1, if_pos c2, insert_present r v ho.2.2.2 hb.2.2 hh.2.2 hr]
        exact balance_unchanged d h l r hh.1 hb.1.1 hb.1.2
      · rw [insert, if_neg c1, if_neg c2]

theorem insert_present_witness :
    Ordered (Tree.node 20 2 (Tree.leaf 10) Tree.nil) ∧
      Balanced (Tree.node 20 2 (Tree.leaf 10) Tree.nil) ∧
      HeightsOK (Tree.node 20 2 (Tree.leaf 10) Tree.nil) ∧
      10 ∈ inorder (Tree.node 20 2 (Tree.leaf 10) Tree.nil) ∧
      insert (Tree.node 20 2 (Tree.leaf 10) Tree.nil) 10 =
        some (Tree.node 20 2 (Tree.leaf 10) Tree.nil) :=
  ⟨by decide, by decide, by decide, by decide,
    insert_present (Tree.node 20 2 (Tree.leaf 10) Tree.nil) 10 (by decide) (by decide)
      (by decide) (by decide)⟩

/-- C7: every list of values builds a tree whose `getHeight` value `h` satisfies
`Fib (h + 2) - 1 ≤ n`, where `n` is the number of distinct values in the list and
`Fib 1 = Fib 2 = 1`; this is the AVL height bound of about `1.44 * log2 (n + 1)`. -/
theorem build_height_bound (xs : List Int) :
    ∃ t, build xs = some t ∧ Nat.fib ((getHeight t).toNat + 2) - 1 ≤ xs.toFinset.card := by
  obtain ⟨t, e, -, f⟩ := insertAll_fits xs Tree.nil ∅ trivial trivial
  refine ⟨t, e, ?_⟩
  have := Fits.bound t f
  rw [Finset.empty_union] at this
  unfold fibBound at this
  unfold getHeight
  omega

/-- C8, the run of `main`: after 10, 20, 30, 40, 50, 25 the inorder sequence is 10 20 25 30;
the values 40 and 50 were dropped by the right rotation of the Right-Left case. -/
theorem main_inorder :
    (build [10, 20, 30, 40, 50, 25]).map inorder = some [10, 20, 25, 30] := by
  decide

/-- C9, the run of `main`: after 10, 20, 30, 40, 50, 25 `getHeight` returns 3. -/
theorem main_getHeight : (build [10, 20, 30, 40, 50, 25]).map getHeight = some 3 := by
  decide

/-- C10: every list of values builds a tree for which `getHeight` returns the structural
height, the number of nodes on the longest path from the root to a leaf (0 when empty). -/
theorem build_getHeight_eq_depth (xs : List Int) :
    ∃ t, build xs = some t ∧ getHeight t = (depth t : Int) := by
  obtain ⟨t, e, ok, _⟩ := build_invariants xs
  exact ⟨t, e, height_eq_depth t ok⟩

/-- C11: a freshly constructed tree, with no insertion, has `getHeight` 0 and an empty inorder
sequence. -/
theorem empty_tree :
    build [] = some Tree.nil ∧ (build []).map getHeight = some 0 ∧
      (build []).map inorder = some [] :=
  ⟨rfl, rfl, rfl⟩

/-- C12: on every tree, `levelOrder` ends as soon as it is given at least as many iterations
as the tree has nodes, and what it writes is the levels of the tree one after the other: the
root first, then the nodes by increasing depth, from left to right within a depth.  That
sequence holds the (data, height) pair of every node exactly once. -/
theorem levelOrder_levels (t : Tree) (fuel : Nat) (hf : size t ≤ fuel) :
    levelOrder fuel t = some (levels t) ∧ (levels t).Perm (nodes t) := by
  refine ⟨?_, levels_perm_nodes t (depth t) (le_refl _)⟩
  unfold levelOrder levels
  by_cases ht : t = Tree.nil
  · subst ht; rfl
  · rw [if_neg ht, levelOrderLoop_eq fuel [t] (depth t) (by simpa using ht) (by simpa using hf)
      (by simp)]
    congr 1
    apply congrArg
    funext k
    simp [row]

theorem levelOrder_levels_witness :
    size (Tree.node 30 3 (Tree.node 20 2 (Tree.leaf 10) (Tree.leaf 25)) Tree.nil) ≤ 4 ∧
      levelOrder 4 (Tree.node 30 3 (Tree.node 20 2 (Tree.leaf 10) (Tree.leaf 25)) Tree.nil) =
        some (levels (Tree.node 30 3 (Tree.node 20 2 (Tree.leaf 10) (Tree.leaf 25)) Tree.nil)) ∧
      (levels (Tree.node 30 3 (Tree.node 20 2 (Tree.leaf 10) (Tree.leaf 25)) Tree.nil)).Perm
        (nodes (Tree.node 30 3 (Tree.node 20 2 (Tree.leaf 10) (Tree.leaf 25)) Tree.nil)) :=
  ⟨by decide,
    levelOrder_levels (Tree.node 30 3 (Tree.node 20 2 (Tree.leaf 10) (Tree.leaf 25)) Tree.nil)
      4 (by decide)⟩

/-- C13, at the left-left chain 30 -> 20 -> 10: `rotateRight` returns the node 20 with left
child 10 and no right child; the node 30 is destroyed instead of becoming the right child. -/
theorem rotateRight_chain :
    rotateRight (Tree.node 30 3 (Tree.node 20 2 (Tree.leaf 10) Tree.nil) Tree.nil) =
      some (Tree.node 20 2 (Tree.leaf 10) Tree.nil) := by
  decide

/-- C14: on a node `x` with right child `y`, `rotateLeft` returns the node of `y` with `y`'s
right subtree on the right and, on the left, the node of `x` with `x`'s left subtree and `y`'s
old left subtree; the cached height of `x` and then of `y` are recomputed.  The inorder
sequence is that of the input. -/
theorem rotateLeft_shape (xd xh : Int) (xl : Tree) (yd yh : Int) (yl yr : Tree) :
    rotateLeft (Tree.node xd xh xl (Tree.node yd yh yl yr)) =
        some (updateHeight (Tree.node yd yh (updateHeight (Tree.node xd xh xl yl)) yr)) ∧
      updateHeight (Tree.node yd yh (updateHeight (Tree.node xd xh xl yl)) yr) =
        Tree.node yd (1 + max (1 + max (height xl) (height yl)) (height yr))
          (Tree.node xd (1 + max (height xl) (height yl)) xl yl) yr ∧
      inorder (updateHeight (Tree.node yd yh (updateHeight (Tree.node xd xh xl yl)) yr)) =
        inorder (Tree.node xd xh xl (Tree.node yd yh yl yr)) := by
  refine ⟨rfl, rfl, ?_⟩
  simp [updateHeight, inorder]

/-- C15, at the node 50 with left subtree 30(20(10), 40) and right subtree 70, which is the
call that inserting 10 makes: both subtrees have correct cached heights and are balanced, and
their heights differ by 2, yet `balance` returns 30(20(10)), which has balance factor 2 at its
root and whose inorder sequence has lost 40, 50 and 70. -/
theorem balance_leftLeft_loses :
    (HeightsOK (Tree.node 30 3 (Tree.node 20 2 (Tree.leaf 10) Tree.nil) (Tree.leaf 40)) ∧
      Balanced (Tree.node 30 3 (Tree.node 20 2 (Tree.leaf 10) Tree.nil) (Tree.leaf 40)) ∧
      HeightsOK (Tree.leaf 70) ∧ Balanced (Tree.leaf 70) ∧
      height (Tree.node 30 3 (Tree.node 20 2 (Tree.leaf 10) Tree.nil) (Tree.leaf 40)) -
        height (Tree.leaf 70) = 2) ∧
    balance (Tree.node 50 3
        (Tree.node 30 3 (Tree.node 20 2 (Tree.leaf 10) Tree.nil) (Tree.leaf 40))
        (Tree.leaf 70)) =
      some (Tree.node 30 3 (Tree.node 20 2 (Tree.leaf 10) Tree.nil) Tree.nil) ∧
    ¬ Balanced (Tree.node 30 3 (Tree.node 20 2 (Tree.leaf 10) Tree.nil) Tree.nil) ∧
    inorder (Tree.node 30 3 (Tree.node 20 2 (Tree.leaf 10) Tree.nil) Tree.nil) = [10, 20, 30] ∧
    inorder (Tree.node 50 3
        (Tree.node 30 3 (Tree.node 20 2 (Tree.leaf 10) Tree.nil) (Tree.leaf 40))
        (Tree.leaf 70)) = [10, 20, 30, 40, 50, 70] := by
  decide

/-- C16: on a tree in binary-search-tree order whose root has a left child, `rotateRight`
returns a tree in binary-search-tree order; on one whose root has a right child, `rotateLeft`
does. -/
theorem rotate_ordered (t : Tree) (ho : Ordered t) :
    (hasLeft t = true → ∃ t', rotateRight t = some t' ∧ Ordered t') ∧
      (hasRight t = true → ∃ t', rotateLeft t = some t' ∧ Ordered t') := by
  constructor
  · intro hl
    match t, ho, hl with
    | Tree.node yd yh (Tree.node xd xh xl xr) yr, ho, _ =>
      refine ⟨_, rotateRight_node yd yh xd xh xl xr yr, ?_⟩
      obtain ⟨-, -, ⟨h1, -, h3, -⟩, -⟩ := ho
      exact ⟨h1, by simp [inorder], h3, trivial⟩
  · intro hr
    match t, ho, hr with
    | Tree.node xd xh xl (Tree.node yd yh yl yr), ho, _ =>
      refine ⟨_, rotateLeft_node xd xh xl yd yh yl yr, ?_⟩
      obtain ⟨h1, h2, h3, h4, h5, h6, h7⟩ := ho
      have hxy : xd < yd := h2 yd (by simp [inorder])
      refine ⟨?_, h5, ⟨h1, ?_, h3, h6⟩, h7⟩
      · intro x hx
        simp only [inorder, List.mem_append, List.mem_cons] at hx
        rcases hx with hx | hx | hx
        · exact lt_trans (h1 x hx) hxy
        · exact hx ▸ hxy
        · exact h4 x hx
      · intro x hx
        exact h2 x (by simp [inorder, hx])

theorem rotate_ordered_witness :
    Ordered (Tree.node 20 2 (Tree.leaf 10) (Tree.leaf 30)) ∧
      (∃ t', rotateRight (Tree.node 20 2 (Tree.leaf 10) (Tree.leaf 30)) = some t' ∧
        Ordered t') ∧
      (∃ t', rotateLeft (Tree.node 20 2 (Tree.leaf 10) (Tree.leaf 30)) = some t' ∧
        Ordered t') :=
  ⟨by decide,
    (rotate_ordered (Tree.node 20 2 (Tree.leaf 10) (Tree.leaf 30)) (by decide)).1 rfl,
    (rotate_ordered (Tree.node 20 2 (Tree.leaf 10) (Tree.leaf 30)) (by decide)).2 rfl⟩

/-- C17: every list of values builds a tree, and inserting any value into it returns a tree:
no call of `rotateRight` or `rotateLeft` made on the way fails.  A rotation fails exactly when
the child it dereferences is absent (`rotateRight`: the left child, `rotateLeft`: the right
child), and a failure anywhere makes `balance` and `insert` fail. -/
theorem insert_safe (xs : List Int) (v : Int) :
    (∀ y, rotateRight y = none ↔ hasLeft y = false) ∧
      (∀ x, rotateLeft x = none ↔ hasRight x = false) ∧
      ∃ t, build xs = some t ∧ ∃ t', insert t v = some t' := by
  refine ⟨rotateRight_eq_none, rotateLeft_eq_none, ?_⟩
  obtain ⟨t, e, ok, so, -⟩ := build_invariants xs
  obtain ⟨t', e', -⟩ := insert_invariants t v ok so
  exact ⟨t, e, t', e'⟩

/-- C18, at the tree built from 50, 30, 70, 20, 40, 10 and the value 20: the tree is
30(20(10)) with `getHeight` 3, and inserting 20 returns 20(10) with `getHeight` 2, so the
insertion lowers the height. -/
theorem insert_lowers_height :
    build [50, 30, 70, 20, 40, 10] =
        some (Tree.node 30 3 (Tree.node 20 2 (Tree.leaf 10) Tree.nil) Tree.nil) ∧
      getHeight (Tree.node 30 3 (Tree.node 20 2 (Tree.leaf 10) Tree.nil) Tree.nil) = 3 ∧
      insert (Tree.node 30 3 (Tree.node 20 2 (Tree.leaf 10) Tree.nil) Tree.nil) 20 =
        some (Tree.node 20 2 (Tree.leaf 10) Tree.nil) ∧
      getHeight (Tree.node 20 2 (Tree.leaf 10) Tree.nil) = 2 := by
  decide

/-- C19: inserting a strictly ascending list of values in order into the empty tree gives a
tree whose inorder sequence is the list, with every balance factor in {-1, 0, 1} and every
cached height correct. -/
theorem build_ascending (xs : List Int) (hs : xs.Sorted (· < ·)) :
    ∃ t, build xs = some t ∧ inorder t = xs ∧ Balanced t ∧ HeightsOK t := by
  obtain ⟨t, e, ok, bal, ino⟩ := insertAll_ascending xs Tree.nil trivial trivial hs
  exact ⟨t, e, ino, bal, ok⟩

theorem build_ascending_witness :
    [10, 20, 30, 40, 50].Sorted (· < ·) ∧
      ∃ t, build [10, 20, 30, 40, 50] = some t ∧ inorder t = [10, 20, 30, 40, 50] ∧
        Balanced t ∧ HeightsOK t :=
  ⟨by decide, build_ascending [10, 20, 30, 40, 50] (by decide)⟩

end AVLTree
